import Mathlib

/-!
Verification of the bit-vector core of the `counter` repository.

The development shallowly embeds `src/bit_vec.rs`: 64-bit machine words
become natural numbers that are kept below `2 ^ 64` (left shifts that wrap
in Rust are followed by an explicit `% 2 ^ 64`), the growable word vector
becomes a `List Nat`, and each method of `BitVec` / `AppendOnlyBitVec`
becomes a pure function on those states.  The `TSBlock` encoder is not part
of `src/`; the two definitions that concern it are modelled from the
specification text and are marked as such.
-/

namespace Counter

/-- The all-ones 64-bit word, Rust `!0u64`. -/
def ones64 : Nat := 2 ^ 64 - 1

/-- Rust `u64` left shift: shifts and keeps the low 64 bits. -/
def shl64 (x k : Nat) : Nat := (x <<< k) % 2 ^ 64

/-- Source `block_i`: the 0-based word index holding bit `index`. -/
def block_i (index : Nat) : Nat := index / 64

/-- Source `offset_i`: the within-word bit offset, MSB-first (bit 0 of the
stream is the most significant bit, offset 63, of word 0). -/
def offset_i (index : Nat) : Nat := 63 - index % 64

/-- Source `block_aligned`: whether `index` starts a 64-bit word. -/
def block_aligned (index : Nat) : Bool := index % 64 == 0

/-- Source `blocks`: number of 64-bit words needed to contain `nbits`. -/
def blocks (nbits : Nat) : Nat :=
  match nbits % 64 with
  | 0 => nbits >>> 6
  | _ => (nbits >>> 6) + 1

/-- Rust `Vec::resize(n, 0)`: truncate or zero-extend to length `n`. -/
def resize (d : List Nat) (n : Nat) : List Nat :=
  d.take n ++ List.replicate (n - d.length) 0

/-- The `BitVec` state: the growable vector of 64-bit words.  A `Vec<u64>`
is modelled by its element list; its reserved capacity is not part of the
observable state. -/
structure BitVec where
  data : List Nat

/-- Source `BitVec::new`. -/
def BitVec.new : BitVec := ⟨[]⟩

/-- Source `BitVec::with_capacity(nbits)`: `Vec::with_capacity(blocks nbits)`
has length 0 whatever its capacity, so the observable state is empty. -/
def BitVec.with_capacity (nbits : Nat) : BitVec := ⟨[]⟩

/-- Source `BitVec::out_of_bounds`: the word holding `index` is beyond the
current data vector. -/
def BitVec.out_of_bounds (v : BitVec) (index : Nat) : Bool :=
  decide (v.data.length < blocks (index + 1))

/-- Source `BitVec::block` (`get_unchecked`): word read; modelled with
default 0, with the in-bounds guarantees proved separately. -/
def BitVec.block (v : BitVec) (index : Nat) : Nat :=
  v.data.getD (block_i index) 0

/-- Source `BitVec::next_block` (`get_unchecked`): read of the word after
the one holding `index`. -/
def BitVec.next_block (v : BitVec) (index : Nat) : Nat :=
  v.data.getD (block_i index + 1) 0

/-- Source `BitVec::get_bit`. -/
def BitVec.get_bit (v : BitVec) (index : Nat) : Bool :=
  if v.out_of_bounds index then false
  else
    let blk := v.block index
    let offset := offset_i index
    let mask := 1 <<< offset
    ((blk &&& mask) >>> offset) == 1

/-- The resize performed by `BitVec::set_bit` before it writes. -/
def grow_for_bit (v : BitVec) (index : Nat) : List Nat :=
  if v.out_of_bounds index then resize v.data (blocks (index + 1)) else v.data

/-- Source `BitVec::set_bit`. -/
def BitVec.set_bit (v : BitVec) (index : Nat) (value : Bool) : BitVec :=
  let d := grow_for_bit v index
  let blk := d.getD (block_i index) 0
  let offset := offset_i index
  let mask := 1 <<< offset
  let blk2 := if value then blk ||| mask else blk &&& (ones64 ^^^ mask)
  ⟨d.set (block_i index) blk2⟩

/-- Source `BitVec::get_block`: the 64 bits starting at `index`, assembled
MSB-first. -/
def BitVec.get_block (v : BitVec) (index : Nat) : Nat :=
  if v.data.length ≤ block_i index then 0
  else
    let blk := v.block index
    let offset := offset_i index
    if offset == 63 then blk
    else
      let result := 0 ||| shl64 blk (63 - offset)
      if v.data.length ≤ block_i index + 1 then result
      else result ||| (v.next_block index >>> (offset + 1))

/-- The resize performed by `BitVec::set_block` before it writes. -/
def grow_for_block (v : BitVec) (index : Nat) : List Nat :=
  if v.out_of_bounds (index + 63) then resize v.data (blocks (index + 64)) else v.data

/-- Source `BitVec::set_cur_block`: write the high part of `blockv` into the
word holding `index`; returns `true` iff `index` was word-aligned (in which
case the whole word was overwritten). -/
def set_cur_block (d : List Nat) (index : Nat) (blockv : Nat) : List Nat × Bool :=
  let cur := d.getD (block_i index) 0
  if block_aligned index then
    (d.set (block_i index) blockv, true)
  else
    let offset := offset_i index
    let mask := shl64 ones64 (offset + 1)
    let dat := blockv >>> (64 - (offset + 1))
    (d.set (block_i index) ((cur &&& mask) ||| dat), false)

/-- Source `BitVec::set_next_block`: write the spilled low part of `blockv`
into the word after the one holding `index`. -/
def set_next_block (d : List Nat) (index : Nat) (blockv : Nat) : List Nat :=
  let cur := d.getD (block_i index + 1) 0
  let offset := offset_i index
  let mask := ones64 >>> (64 - (offset + 1))
  let dat := shl64 blockv (offset + 1)
  d.set (block_i index + 1) ((cur &&& mask) ||| dat)

/-- Source `BitVec::set_block`. -/
def BitVec.set_block (v : BitVec) (index : Nat) (blockv : Nat) : BitVec :=
  let d := grow_for_block v index
  match set_cur_block d index blockv with
  | (d2, true) => ⟨d2⟩
  | (d2, false) => ⟨set_next_block d2 index blockv⟩

/-- Source `BitVec::clear`: zero every stored word, keeping the length. -/
def BitVec.clear (v : BitVec) : BitVec :=
  ⟨List.replicate v.data.length 0⟩

/-- All stored words are genuine `u64` values.  Every state reachable from
`new` by the operations satisfies this. -/
def wf (v : BitVec) : Prop := ∀ x ∈ v.data, x < 2 ^ 64

/-- The `AppendOnlyBitVec` state: a `BitVec` plus the bit cursor `len`. -/
structure AppendOnlyBitVec where
  vec : BitVec
  len : Nat

/-- Source `AppendOnlyBitVec::new`. -/
def AppendOnlyBitVec.new : AppendOnlyBitVec := ⟨BitVec.new, 0⟩

/-- Source `AppendOnlyBitVec::with_capacity`. -/
def AppendOnlyBitVec.with_capacity (nbits : Nat) : AppendOnlyBitVec :=
  ⟨BitVec.with_capacity nbits, 0⟩

/-- Source `AppendOnlyBitVec::get_bit`. -/
def AppendOnlyBitVec.get_bit (a : AppendOnlyBitVec) (index : Nat) : Bool :=
  a.vec.get_bit index

/-- Source `AppendOnlyBitVec::get_block`. -/
def AppendOnlyBitVec.get_block (a : AppendOnlyBitVec) (index : Nat) : Nat :=
  a.vec.get_block index

/-- Source `AppendOnlyBitVec::append` (the Rust `match` on the literal
patterns `0`, `1`, `64`, `_` is written as the equivalent chain of equality
tests). -/
def AppendOnlyBitVec.append (a : AppendOnlyBitVec) (bits : Nat) (data : Nat) :
    AppendOnlyBitVec :=
  if bits = 0 then a
  else if bits = 1 then ⟨a.vec.set_bit a.len ((data &&& 1) == 1), a.len + 1⟩
  else if bits = 64 then ⟨a.vec.set_block a.len data, a.len + 64⟩
  else
    let mask := ones64 >>> (64 - bits)
    let d := shl64 (data &&& mask) (63 - bits)
    ⟨a.vec.set_block a.len d, a.len + bits⟩

/-- The integer whose most significant bit (weight `2 ^ 63`) is `g 0`, next
bit `g 1`, and so on down to `g 63` as the least significant bit. -/
def ms_assemble (g : Nat → Bool) : Nat :=
  ∑ k in Finset.range 64, cond (g k) (2 ^ (63 - k)) 0

/-- Run a sequence of `append` operations from `AppendOnlyBitVec::new`. -/
def run_appends (ops : List (Nat × Nat)) : AppendOnlyBitVec :=
  ops.foldl (fun a op => a.append op.1 op.2) AppendOnlyBitVec.new

/-- Modelled from the spec: `TSBlock::at(ts0)` (the `TSBlock` encoder is
not present under `src/`).  The block starts with the 64-bit base timestamp
`ts0` as its first word, written through the append cursor. -/
def ts_block_at (ts0 : Nat) : AppendOnlyBitVec :=
  AppendOnlyBitVec.new.append 64 ts0

/-- Modelled from the spec: the first-sample path of
`TSBlock::publish_at(value, ts)` — emit `delta = ts - ts0` as a 14-bit
field, then the raw IEEE-754 bit pattern of the value (the float is
represented here directly by that 64-bit pattern) as a 64-bit field. -/
def publish_first (d : AppendOnlyBitVec) (ts0 value ts : Nat) : AppendOnlyBitVec :=
  (d.append 14 (ts - ts0)).append 64 value

end Counter

namespace Counter

instance (v : BitVec) : Decidable (wf v) :=
  inferInstanceAs (Decidable (∀ x ∈ v.data, x < 2 ^ 64))

theorem blocks_eq (n : Nat) : blocks n = (n + 63) / 64 := by
  have h64 : n >>> 6 = n / 64 := Nat.shiftRight_eq_div_pow n 6
  by_cases h : n % 64 = 0
  · have hb : blocks n = n >>> 6 := by
      unfold blocks
      rw [h]
    rw [hb, h64]
    omega
  · have hb : blocks n = n >>> 6 + 1 := by
      unfold blocks
      rcases hk : n % 64 with _ | k
      · exact absurd hk h
      · rfl
    rw [hb, h64]
    omega

theorem getD_eq_zero (l : List Nat) (u : Nat) (h : l.length ≤ u) : l.getD u 0 = 0 := by
  simp [List.getD_eq_getElem?_getD, List.getElem?_eq_none h]

theorem getD_set (l : List Nat) (w u x : Nat) :
    (l.set w x).getD u 0 = if u = w ∧ w < l.length then x else l.getD u 0 := by
  by_cases hw : w < l.length
  · by_cases hu : u = w
    · subst hu
      simp [List.getD_eq_getElem?_getD, List.getElem?_set_self, hw]
    · rw [List.getD_eq_getElem?_getD, List.getD_eq_getElem?_getD,
        List.getElem?_set_ne (Ne.symm hu), if_neg (fun h => hu h.1)]
  · rw [List.set_eq_of_length_le (Nat.le_of_not_lt hw), if_neg (fun h => hw h.2)]

theorem getD_append_replicate (l : List Nat) (m u : Nat) :
    (l ++ List.replicate m 0).getD u 0 = l.getD u 0 := by
  by_cases h : u < l.length
  · rw [List.getD_eq_getElem?_getD, List.getElem?_append, if_pos h,
      ← List.getD_eq_getElem?_getD]
  · rw [getD_eq_zero l u (Nat.le_of_not_lt h), List.getD_eq_getElem?_getD,
      List.getElem?_append, if_neg h, List.getElem?_replicate]
    split <;> rfl

theorem resize_length (l : List Nat) (n : Nat) :
    (resize l n).length = n := by
  unfold resize
  rw [List.length_append, List.length_take, List.length_replicate]
  omega

theorem getD_resize (l : List Nat) (n u : Nat) (h : l.length ≤ n) :
    (resize l n).getD u 0 = l.getD u 0 := by
  unfold resize
  rw [List.take_of_length_le h]
  exact getD_append_replicate l (n - l.length) u

theorem testBit_of_get_formula (x off : Nat) :
    (((x &&& (1 <<< off)) >>> off) == 1) = x.testBit off := by
  rw [Nat.one_shiftLeft, Nat.and_two_pow]
  have hp : (0:Nat) < 2 ^ off := Nat.pos_pow_of_pos off (by omega)
  cases h : x.testBit off
  · simp
  · simp [Nat.shiftRight_eq_div_pow, Nat.div_self hp]

theorem get_bit_eq (v : BitVec) (i : Nat) :
    v.get_bit i = (v.data.getD (i / 64) 0).testBit (63 - i % 64) := by
  unfold BitVec.get_bit BitVec.block BitVec.out_of_bounds block_i offset_i
  by_cases h : v.data.length < blocks (i + 1)
  · rw [if_pos (by simpa using h), getD_eq_zero]
    · simp
    · rw [blocks_eq] at h
      omega
  · rw [if_neg (by simpa using h)]
    exact testBit_of_get_formula _ _

theorem blocks_i1 (i : Nat) : blocks (i + 1) = i / 64 + 1 := by
  rw [blocks_eq]
  omega

theorem blocks_i64 (i : Nat) :
    blocks (i + 64) = if i % 64 = 0 then i / 64 + 1 else i / 64 + 2 := by
  rw [blocks_eq]
  split <;> omega

theorem grow_for_bit_length (v : BitVec) (i : Nat) :
    (grow_for_bit v i).length = max v.data.length (i / 64 + 1) := by
  unfold grow_for_bit BitVec.out_of_bounds
  rw [blocks_i1]
  by_cases h : v.data.length < i / 64 + 1
  · rw [if_pos (by simpa using h), resize_length]
    omega
  · rw [if_neg (by simpa using h)]
    omega

theorem grow_for_bit_getD (v : BitVec) (i w : Nat) :
    (grow_for_bit v i).getD w 0 = v.data.getD w 0 := by
  unfold grow_for_bit BitVec.out_of_bounds
  by_cases h : v.data.length < blocks (i + 1)
  · rw [if_pos (by simpa using h)]
    exact getD_resize _ _ _ (Nat.le_of_lt h)
  · rw [if_neg (by simpa using h)]

theorem grow_for_block_length (v : BitVec) (i : Nat) :
    (grow_for_block v i).length = max v.data.length (blocks (i + 64)) := by
  unfold grow_for_block BitVec.out_of_bounds
  have he : i + 63 + 1 = i + 64 := by omega
  rw [he]
  by_cases h : v.data.length < blocks (i + 64)
  · rw [if_pos (by simpa using h), resize_length]
    omega
  · rw [if_neg (by simpa using h)]
    omega

theorem grow_for_block_getD (v : BitVec) (i w : Nat) :
    (grow_for_block v i).getD w 0 = v.data.getD w 0 := by
  unfold grow_for_block BitVec.out_of_bounds
  have he : i + 63 + 1 = i + 64 := by omega
  rw [he]
  by_cases h : v.data.length < blocks (i + 64)
  · rw [if_pos (by simpa using h)]
    exact getD_resize _ _ _ (Nat.le_of_lt h)
  · rw [if_neg (by simpa using h)]

theorem set_bit_length (v : BitVec) (i : Nat) (b : Bool) :
    (v.set_bit i b).data.length = max v.data.length (blocks (i + 1)) := by
  simp only [BitVec.set_bit, block_i]
  rw [List.length_set, grow_for_bit_length, blocks_i1]

theorem set_bit_word (v : BitVec) (i : Nat) (b : Bool) (u : Nat) :
    (v.set_bit i b).data.getD u 0 =
      if u = i / 64 then
        (if b then (v.data.getD u 0) ||| (1 <<< (63 - i % 64))
         else (v.data.getD u 0) &&& (ones64 ^^^ (1 <<< (63 - i % 64))))
      else v.data.getD u 0 := by
  have hlen : i / 64 < (grow_for_bit v i).length := by
    rw [grow_for_bit_length]
    omega
  simp only [BitVec.set_bit, block_i, offset_i]
  rw [getD_set]
  by_cases hu : u = i / 64
  · rw [if_pos ⟨hu, hlen⟩, if_pos hu, grow_for_bit_getD, hu]
  · rw [if_neg (fun h => hu h.1), if_neg hu, grow_for_bit_getD]

theorem set_block_data (v : BitVec) (i bv : Nat) :
    (v.set_block i bv).data =
      if i % 64 = 0 then (grow_for_block v i).set (i / 64) bv
      else
        ((grow_for_block v i).set (i / 64)
            (((grow_for_block v i).getD (i / 64) 0 &&& shl64 ones64 (64 - i % 64)) |||
              (bv >>> (i % 64)))).set (i / 64 + 1)
          ((((grow_for_block v i).set (i / 64)
                  (((grow_for_block v i).getD (i / 64) 0 &&& shl64 ones64 (64 - i % 64)) |||
                    (bv >>> (i % 64)))).getD (i / 64 + 1) 0 &&&
              (ones64 >>> (i % 64))) |||
            shl64 bv (64 - i % 64)) := by
  have e1 : 63 - i % 64 + 1 = 64 - i % 64 := by omega
  have e2 : 64 - (63 - i % 64 + 1) = i % 64 := by omega
  have e3 : 64 - (64 - i % 64) = i % 64 := by omega
  by_cases ha : i % 64 = 0
  · have hb : block_aligned i = true := by
      simp [block_aligned, ha]
    simp only [BitVec.set_block, set_cur_block, hb, if_pos, block_i, if_true]
    rw [if_pos ha]
  · have hb : block_aligned i = false := by
      simp [block_aligned, ha]
    simp only [BitVec.set_block, set_cur_block, set_next_block, hb, Bool.false_eq_true,
      if_false, block_i, offset_i, e1, e2, e3]
    rw [if_neg ha]

theorem set_block_length (v : BitVec) (i bv : Nat) :
    (v.set_block i bv).data.length = max v.data.length (blocks (i + 64)) := by
  rw [set_block_data]
  split <;> simp only [List.length_set] <;> rw [grow_for_block_length]

theorem set_block_word (v : BitVec) (i bv u : Nat) :
    (v.set_block i bv).data.getD u 0 =
      if i % 64 = 0 then
        (if u = i / 64 then bv else v.data.getD u 0)
      else if u = i / 64 then
        ((v.data.getD u 0) &&& shl64 ones64 (64 - i % 64)) ||| (bv >>> (i % 64))
      else if u = i / 64 + 1 then
        ((v.data.getD u 0) &&& (ones64 >>> (i % 64))) ||| shl64 bv (64 - i % 64)
      else v.data.getD u 0 := by
  rw [set_block_data]
  by_cases ha : i % 64 = 0
  · rw [if_pos ha, if_pos ha, getD_set]
    have hlen : i / 64 < (grow_for_block v i).length := by
      rw [grow_for_block_length, blocks_i64, if_pos ha]
      omega
    by_cases hu : u = i / 64
    · rw [if_pos ⟨hu, hlen⟩, if_pos hu]
    · rw [if_neg (fun h => hu h.1), if_neg hu, grow_for_block_getD]
  · have hlen : i / 64 + 1 < (grow_for_block v i).length := by
      rw [grow_for_block_length, blocks_i64, if_neg ha]
      omega
    have hlen0 : i / 64 < (grow_for_block v i).length := by omega
    have hne : ¬(i / 64 + 1 = i / 64) := by omega
    have inner :
        ((grow_for_block v i).set (i / 64)
            (((grow_for_block v i).getD (i / 64) 0 &&& shl64 ones64 (64 - i % 64)) |||
              (bv >>> (i % 64)))).getD (i / 64 + 1) 0 = v.data.getD (i / 64 + 1) 0 := by
      rw [getD_set, if_neg (fun h => hne h.1)]
      exact grow_for_block_getD v i _
    rw [if_neg ha, if_neg ha, inner, getD_set, List.length_set]
    by_cases hu1 : u = i / 64 + 1
    · rw [if_pos ⟨hu1, hlen⟩, if_neg (by omega), if_pos hu1, hu1]
    · rw [if_neg (fun h => hu1 h.1), getD_set]
      by_cases hu0 : u = i / 64
      · rw [if_pos ⟨hu0, hlen0⟩, if_pos hu0, grow_for_block_getD, hu0]
      · rw [if_neg (fun h => hu0 h.1), if_neg hu0, if_neg hu1, grow_for_block_getD]

theorem testBit_ge_64 (x k : Nat) (hx : x < 2 ^ 64) (hk : 64 ≤ k) :
    x.testBit k = false :=
  Nat.testBit_lt_two_pow (lt_of_lt_of_le hx (Nat.pow_le_pow_right (by omega) hk))

theorem testBit_ones64 (p : Nat) : ones64.testBit p = decide (p < 64) :=
  Nat.testBit_two_pow_sub_one 64 p

theorem get_bit_set_bit (v : BitVec) (i : Nat) (b : Bool) (j : Nat) :
    (v.set_bit i b).get_bit j = if j = i then b else v.get_bit j := by
  rw [get_bit_eq, get_bit_eq, set_bit_word]
  by_cases hu : j / 64 = i / 64
  · rw [if_pos hu]
    by_cases hj : j = i
    · subst hj
      rw [if_pos rfl]
      have h64 : 63 - j % 64 < 64 := by omega
      cases b <;>
        simp [Nat.testBit_lor, Nat.testBit_land, Nat.testBit_xor, Nat.one_shiftLeft,
          Nat.testBit_two_pow, testBit_ones64, h64]
    · rw [if_neg hj]
      have hoff : ¬(63 - i % 64 = 63 - j % 64) := by omega
      have h64 : 63 - j % 64 < 64 := by omega
      cases b <;>
        simp [Nat.testBit_lor, Nat.testBit_land, Nat.testBit_xor, Nat.one_shiftLeft,
          Nat.testBit_two_pow, testBit_ones64, hoff, h64]
  · rw [if_neg hu, if_neg (by omega)]

theorem get_bit_set_block (v : BitVec) (i bv j : Nat) (hb : bv < 2 ^ 64) :
    (v.set_block i bv).get_bit j =
      if i ≤ j ∧ j < i + 64 then bv.testBit (63 - (j - i)) else v.get_bit j := by
  rw [get_bit_eq, get_bit_eq, set_block_word]
  by_cases ha : i % 64 = 0
  · rw [if_pos ha]
    by_cases hu : j / 64 = i / 64
    · rw [if_pos hu, if_pos (show i ≤ j ∧ j < i + 64 by omega)]
      congr 1
      omega
    · rw [if_neg hu, if_neg (by omega)]
  · rw [if_neg ha]
    by_cases hu : j / 64 = i / 64
    · rw [if_pos hu]
      simp only [Nat.testBit_lor, Nat.testBit_land, shl64, Nat.testBit_mod_two_pow,
        Nat.testBit_shiftLeft, Nat.testBit_shiftRight, ones64, Nat.testBit_two_pow_sub_one]
      by_cases hw : i ≤ j
      · rw [if_pos (show i ≤ j ∧ j < i + 64 by omega)]
        have h1 : ¬(63 - j % 64 ≥ 64 - i % 64) := by omega
        simp only [h1, decide_False, Bool.false_and, Bool.and_false, Bool.false_or]
        congr 1
        omega
      · rw [if_neg (by omega)]
        have h1 : 63 - j % 64 ≥ 64 - i % 64 := by omega
        have h2 : 63 - j % 64 < 64 := by omega
        have h3 : 63 - j % 64 - (64 - i % 64) < 64 := by omega
        have hbv : bv.testBit (i % 64 + (63 - j % 64)) = false :=
          testBit_ge_64 bv _ hb (by omega)
        simp [h1, h2, h3, hbv]
    · by_cases hu1 : j / 64 = i / 64 + 1
      · rw [if_neg hu, if_pos hu1]
        simp only [Nat.testBit_lor, Nat.testBit_land, shl64, Nat.testBit_mod_two_pow,
          Nat.testBit_shiftLeft, Nat.testBit_shiftRight, ones64, Nat.testBit_two_pow_sub_one]
        by_cases hw : j < i + 64
        · rw [if_pos (show i ≤ j ∧ j < i + 64 by omega)]
          have h1 : ¬(i % 64 + (63 - j % 64) < 64) := by omega
          have h2 : 63 - j % 64 < 64 := by omega
          have h3 : 63 - j % 64 ≥ 64 - i % 64 := by omega
          simp only [h1, decide_False, Bool.and_false, Bool.false_or, h2, h3, decide_True,
            Bool.true_and, Bool.and_true]
          congr 1
          omega
        · rw [if_neg (by omega)]
          have h1 : i % 64 + (63 - j % 64) < 64 := by omega
          have h2 : ¬(63 - j % 64 ≥ 64 - i % 64) := by omega
          simp [h1, h2]
      · rw [if_neg hu, if_neg hu1, if_neg (by omega)]

theorem get_block_eq (v : BitVec) (i : Nat) :
    v.get_block i =
      if v.data.length ≤ i / 64 then 0
      else if i % 64 = 0 then v.data.getD (i / 64) 0
      else shl64 (v.data.getD (i / 64) 0) (i % 64) |||
        ((v.data.getD (i / 64 + 1) 0) >>> (64 - i % 64)) := by
  unfold BitVec.get_block BitVec.block BitVec.next_block block_i offset_i
  by_cases h0 : v.data.length ≤ i / 64
  · rw [if_pos h0, if_pos h0]
  · rw [if_neg h0, if_neg h0]
    have e0 : ((63 - i % 64 == 63) = true) ↔ i % 64 = 0 := by
      rw [Nat.beq_eq_true_eq]
      omega
    by_cases ha : i % 64 = 0
    · rw [if_pos (e0.mpr ha), if_pos ha]
    · rw [if_neg (fun hh => ha (e0.mp hh)), if_neg ha]
      have e1 : 63 - (63 - i % 64) = i % 64 := by omega
      have e2 : 63 - i % 64 + 1 = 64 - i % 64 := by omega
      rw [e1, e2, Nat.zero_or]
      by_cases h1 : v.data.length ≤ i / 64 + 1
      · rw [if_pos h1, getD_eq_zero _ _ h1, Nat.zero_shiftRight, Nat.or_zero]
      · rw [if_neg h1]

theorem wf_getD (v : BitVec) (hw : wf v) (u : Nat) : v.data.getD u 0 < 2 ^ 64 := by
  by_cases h : u < v.data.length
  · rw [List.getD_eq_getElem?_getD, List.getElem?_eq_getElem h]
    exact hw _ (List.getElem_mem h)
  · rw [getD_eq_zero _ _ (by omega)]
    positivity

theorem get_block_lt (v : BitVec) (i : Nat) (hw : wf v) : v.get_block i < 2 ^ 64 := by
  rw [get_block_eq]
  by_cases h0 : v.data.length ≤ i / 64
  · rw [if_pos h0]
    positivity
  · rw [if_neg h0]
    by_cases ha : i % 64 = 0
    · rw [if_pos ha]
      exact wf_getD v hw _
    · rw [if_neg ha]
      refine Nat.or_lt_two_pow ?_ ?_
      · exact Nat.mod_lt _ (by positivity)
      · calc v.data.getD (i / 64 + 1) 0 >>> (64 - i % 64)
            ≤ v.data.getD (i / 64 + 1) 0 := by
              rw [Nat.shiftRight_eq_div_pow]
              exact Nat.div_le_self _ _
          _ < 2 ^ 64 := wf_getD v hw _

theorem get_block_testBit (v : BitVec) (i p : Nat) (hw : wf v) (hp : p < 64) :
    (v.get_block i).testBit p = v.get_bit (i + (63 - p)) := by
  have hg := wf_getD v hw
  rw [get_block_eq, get_bit_eq]
  by_cases h0 : v.data.length ≤ i / 64
  · rw [if_pos h0,
      getD_eq_zero _ _ (le_trans h0 (Nat.div_le_div_right (by omega)))]
    simp
  · rw [if_neg h0]
    by_cases ha : i % 64 = 0
    · rw [if_pos ha]
      have e1 : (i + (63 - p)) / 64 = i / 64 := by omega
      have e2 : 63 - (i + (63 - p)) % 64 = p := by omega
      rw [e1, e2]
    · rw [if_neg ha]
      simp only [Nat.testBit_lor, shl64, Nat.testBit_mod_two_pow, Nat.testBit_shiftLeft,
        Nat.testBit_shiftRight]
      by_cases hpr : i % 64 ≤ p
      · have e1 : (i + (63 - p)) / 64 = i / 64 := by omega
        have e2 : 63 - (i + (63 - p)) % 64 = p - i % 64 := by omega
        have h2 : (v.data.getD (i / 64 + 1) 0).testBit (64 - i % 64 + p) = false :=
          testBit_ge_64 _ _ (hg _) (by omega)
        rw [e1, e2, h2]
        simp [hp, hpr]
      · have e1 : (i + (63 - p)) / 64 = i / 64 + 1 := by omega
        have e2 : 63 - (i + (63 - p)) % 64 = 64 - i % 64 + p := by omega
        rw [e1, e2]
        simp [hp, hpr]

theorem get_block_set_block (v : BitVec) (i bv : Nat) (hb : bv < 2 ^ 64) :
    (v.set_block i bv).get_block i = bv := by
  have hlen := set_block_length v i bv
  rw [get_block_eq]
  by_cases ha : i % 64 = 0
  · have hq : ¬((v.set_block i bv).data.length ≤ i / 64) := by
      rw [hlen, blocks_i64, if_pos ha]
      omega
    rw [if_neg hq, if_pos ha, set_block_word, if_pos ha, if_pos rfl]
  · have hq : ¬((v.set_block i bv).data.length ≤ i / 64) := by
      rw [hlen, blocks_i64, if_neg ha]
      omega
    rw [if_neg hq, if_neg ha, set_block_word, set_block_word, if_neg ha, if_neg ha,
      if_pos rfl, if_neg (show ¬(i / 64 + 1 = i / 64) by omega), if_pos rfl]
    apply Nat.eq_of_testBit_eq
    intro p
    simp only [shl64, Nat.testBit_lor, Nat.testBit_land, Nat.testBit_mod_two_pow,
      Nat.testBit_shiftLeft, Nat.testBit_shiftRight, testBit_ones64]
    by_cases hp : p < 64
    · by_cases hpr : i % 64 ≤ p
      · have f1 : ¬(64 - i % 64 ≤ p - i % 64) := by omega
        have f2 : ¬(64 - i % 64 + p < 64) := by omega
        have f3 : ¬(i % 64 + (64 - i % 64 + p) < 64) := by omega
        have e : i % 64 + (p - i % 64) = p := by omega
        simp [hp, hpr, f1, f2, f3, e]
      · have f2 : 64 - i % 64 + p < 64 := by omega
        have f3 : ¬(i % 64 + (64 - i % 64 + p) < 64) := by omega
        have f4 : 64 - i % 64 ≤ 64 - i % 64 + p := by omega
        have e : 64 - i % 64 + p - (64 - i % 64) = p := by omega
        simp [hp, hpr, f2, f3, f4, e]
    · have f2 : ¬(64 - i % 64 + p < 64) := by omega
      have f3 : ¬(i % 64 + (64 - i % 64 + p) < 64) := by omega
      have hbv : bv.testBit p = false := testBit_ge_64 bv p hb (by omega)
      simp [hp, f2, f3, hbv]

theorem wf_of_getD (v : BitVec) (h : ∀ u, v.data.getD u 0 < 2 ^ 64) : wf v := by
  intro x hx
  obtain ⟨u, hu, rfl⟩ := List.mem_iff_getElem.mp hx
  have hh := h u
  rwa [List.getD_eq_getElem?_getD, List.getElem?_eq_getElem hu] at hh

theorem wf_new : wf BitVec.new := by
  intro x hx
  simp [BitVec.new] at hx

theorem wf_with_capacity (n : Nat) : wf (BitVec.with_capacity n) := by
  intro x hx
  simp [BitVec.with_capacity] at hx

theorem wf_clear (v : BitVec) : wf v.clear := by
  intro x hx
  rw [List.eq_of_mem_replicate hx]
  positivity

theorem wf_set_bit (v : BitVec) (i : Nat) (b : Bool) (hw : wf v) :
    wf (v.set_bit i b) := by
  apply wf_of_getD
  intro u
  have hgu := wf_getD v hw u
  rw [set_bit_word]
  split
  · split
    · refine Nat.or_lt_two_pow hgu ?_
      rw [Nat.one_shiftLeft]
      exact Nat.pow_lt_pow_right (by omega) (by omega)
    · exact lt_of_le_of_lt Nat.and_le_left hgu
  · exact hgu

theorem shl64_lt (x k : Nat) : shl64 x k < 2 ^ 64 := by
  unfold shl64
  exact Nat.mod_lt _ (by positivity)

theorem wf_set_block (v : BitVec) (i bv : Nat) (hb : bv < 2 ^ 64) (hw : wf v) :
    wf (v.set_block i bv) := by
  apply wf_of_getD
  intro u
  have hgu := wf_getD v hw u
  rw [set_block_word]
  split
  · split
    · exact hb
    · exact hgu
  · split
    · refine Nat.or_lt_two_pow (lt_of_le_of_lt Nat.and_le_left hgu) ?_
      calc bv >>> (i % 64) ≤ bv := by
            rw [Nat.shiftRight_eq_div_pow]
            exact Nat.div_le_self _ _
        _ < 2 ^ 64 := hb
    · split
      · exact Nat.or_lt_two_pow (lt_of_le_of_lt Nat.and_le_left hgu) (shl64_lt _ _)
      · exact hgu

theorem sum_testBit (n : Nat) :
    ∀ x : Nat, x < 2 ^ n → x = ∑ p in Finset.range n, cond (x.testBit p) (2 ^ p) 0 := by
  induction n with
  | zero =>
    intro x hx
    have h0 : x = 0 := by omega
    subst h0
    simp
  | succ n ih =>
    intro x hx
    rw [Finset.sum_range_succ']
    have h2 : ∀ p, (cond (x.testBit (p + 1)) (2 ^ (p + 1)) 0) =
        2 * cond ((x / 2).testBit p) (2 ^ p) 0 := by
      intro p
      rw [Nat.testBit_succ]
      cases (x / 2).testBit p <;> simp [pow_succ] <;> ring
    simp only [h2]
    rw [← Finset.mul_sum]
    have h2n : x / 2 < 2 ^ n := by
      have hps := pow_succ 2 n
      omega
    rw [← ih (x / 2) h2n]
    have h0 : x.testBit 0 = decide (x % 2 = 1) := by
      simp [Nat.testBit_to_div_mod]
    rw [h0]
    rcases Nat.mod_two_eq_zero_or_one x with h | h <;> simp [h] <;> omega

theorem ms_assemble_spec (x : Nat) (g : Nat → Bool) (hx : x < 2 ^ 64)
    (h : ∀ p, p < 64 → x.testBit p = g (63 - p)) : x = ms_assemble g := by
  have h1 : (∑ p in Finset.range 64, cond (x.testBit p) (2 ^ p) 0)
      = ∑ p in Finset.range 64, cond (g (63 - p)) (2 ^ p) 0 := by
    apply Finset.sum_congr rfl
    intro p hp
    rw [h p (Finset.mem_range.mp hp)]
  have h2 : (∑ k in Finset.range 64, cond (g k) (2 ^ (63 - k)) 0)
      = ∑ p in Finset.range 64, cond (g (63 - p)) (2 ^ p) 0 := by
    rw [← Finset.sum_range_reflect]
    apply Finset.sum_congr rfl
    intro p hp
    have hp64 := Finset.mem_range.mp hp
    have e1 : 64 - 1 - p = 63 - p := by omega
    have e2 : 63 - (63 - p) = p := by omega
    rw [e1, e2]
  rw [sum_testBit 64 x hx, h1, ms_assemble, h2]

theorem get_bit_new (j : Nat) : AppendOnlyBitVec.new.get_bit j = false := by
  rw [AppendOnlyBitVec.get_bit, get_bit_eq]
  simp [AppendOnlyBitVec.new, BitVec.new]

theorem append_len (a : AppendOnlyBitVec) (n d : Nat) :
    (a.append n d).len = a.len + n := by
  unfold AppendOnlyBitVec.append
  split_ifs with h0 h1 h64
  · simp [h0]
  · simp [h1]
  · simp [h64]
  · simp

theorem append1_get_bit (a : AppendOnlyBitVec) (d j : Nat) :
    (a.append 1 d).get_bit j =
      if j = a.len then ((d &&& 1) == 1) else a.get_bit j := by
  unfold AppendOnlyBitVec.append
  norm_num
  exact get_bit_set_bit a.vec a.len _ j

theorem append64_get_bit (a : AppendOnlyBitVec) (d j : Nat) (hd : d < 2 ^ 64) :
    (a.append 64 d).get_bit j =
      if a.len ≤ j ∧ j < a.len + 64 then d.testBit (63 - (j - a.len))
      else a.get_bit j := by
  unfold AppendOnlyBitVec.append
  norm_num
  exact get_bit_set_block a.vec a.len d j hd

theorem append_mid_get_bit (a : AppendOnlyBitVec) (n d j : Nat)
    (h2 : 2 ≤ n) (h63 : n ≤ 63) :
    (a.append n d).get_bit j =
      if a.len ≤ j ∧ j < a.len + 64 then
        (shl64 (d &&& (ones64 >>> (64 - n))) (63 - n)).testBit (63 - (j - a.len))
      else a.get_bit j := by
  unfold AppendOnlyBitVec.append
  rw [if_neg (by omega), if_neg (by omega), if_neg (by omega)]
  exact get_bit_set_block a.vec a.len _ j (shl64_lt _ _)

/-- C3: Block round-trip with frame — for every `BitVec` state, bit index
`i` and 64-bit `block`, after `set_block(i, block)` a `get_block(i)` returns
`block`, and every bit outside the window `[i, i + 64)` is unchanged. -/
theorem claim_C3 (v : BitVec) (i bv : Nat) (hb : bv < 2 ^ 64) :
    ((v.set_block i bv).get_block i = bv) ∧
    (∀ j, j < i ∨ i + 64 ≤ j → (v.set_block i bv).get_bit j = v.get_bit j) := by
  refine ⟨get_block_set_block v i bv hb, ?_⟩
  intro j hj
  rw [get_bit_set_block v i bv j hb, if_neg (by omega)]

/-- C3 witness at `i = 5`, `block = 3` on the empty vector. -/
theorem claim_C3_witness :
    (3 < 2 ^ 64) ∧ ((BitVec.new.set_block 5 3).get_block 5 = 3) ∧
    ((BitVec.new.set_block 5 3).get_bit 99 = BitVec.new.get_bit 99) :=
  ⟨by norm_num, (claim_C3 BitVec.new 5 3 (by norm_num)).1,
    (claim_C3 BitVec.new 5 3 (by norm_num)).2 99 (by omega)⟩

/-- C5: Bit/block read coherence — on every well-formed state (all stored
words below `2 ^ 64`; every state reachable by the operations is such, by
`wf_new`, `wf_set_bit`, `wf_set_block`, `wf_clear`), `get_block(i)` is the
64-bit integer whose MSB is `get_bit(i)` down to LSB `get_bit(i + 63)`,
positions beyond storage reading as zero. -/
theorem claim_C5 (v : BitVec) (i : Nat) (hw : wf v) :
    v.get_block i = ms_assemble (fun k => v.get_bit (i + k)) := by
  apply ms_assemble_spec _ _ (get_block_lt v i hw)
  intro p hp
  rw [get_block_testBit v i p hw hp]

/-- C5 witness on the concrete state `[5, 7]` at the straddling index 60. -/
theorem claim_C5_witness :
    wf ⟨[5, 7]⟩ ∧
    BitVec.get_block ⟨[5, 7]⟩ 60 =
      ms_assemble (fun k => BitVec.get_bit ⟨[5, 7]⟩ (60 + k)) :=
  ⟨by decide, claim_C5 ⟨[5, 7]⟩ 60 (by decide)⟩

/-- C7: Storage-length invariant — `set_bit(i)` grows storage to exactly
`blocks(i + 1) = ceil((i+1)/64)` words when that exceeds the current length
and `set_block(i, _)` to `blocks(i + 64)` words; growth zero-fills the new
words other than the written one(s); the word count never decreases, and
`clear()` leaves it unchanged. -/
theorem claim_C7 (v : BitVec) (i : Nat) (b : Bool) (bv : Nat) :
    ((v.set_bit i b).data.length = max v.data.length (blocks (i + 1))) ∧
    ((v.set_block i bv).data.length = max v.data.length (blocks (i + 64))) ∧
    (v.data.length ≤ (v.set_bit i b).data.length) ∧
    (v.data.length ≤ (v.set_block i bv).data.length) ∧
    (v.clear.data.length = v.data.length) ∧
    (∀ u, v.data.length ≤ u → u ≠ block_i i →
      (v.set_bit i b).data.getD u 0 = 0) ∧
    (∀ u, v.data.length ≤ u → u ≠ block_i i → u ≠ block_i i + 1 →
      (v.set_block i bv).data.getD u 0 = 0) := by
  refine ⟨set_bit_length v i b, set_block_length v i bv, ?_, ?_, ?_, ?_, ?_⟩
  · rw [set_bit_length]
    omega
  · rw [set_block_length]
    omega
  · simp [BitVec.clear]
  · intro u hu hne
    simp only [block_i] at hne
    rw [set_bit_word, if_neg hne]
    exact getD_eq_zero _ _ hu
  · intro u hu hne1 hne2
    simp only [block_i] at hne1 hne2
    have h0 : v.data.getD u 0 = 0 := getD_eq_zero _ _ hu
    rw [set_block_word]
    split
    · exact h0
    · exact h0

/-- C7 witness at `i = 100` on the empty vector. -/
theorem claim_C7_witness :
    ((BitVec.new.set_bit 100 true).data.length =
      max BitVec.new.data.length (blocks 101)) ∧
    ((BitVec.new.set_bit 100 true).data.getD 0 0 = 0) ∧
    ((BitVec.new.set_block 100 5).data.getD 0 0 = 0) :=
  ⟨(claim_C7 BitVec.new 100 true 5).1,
    (claim_C7 BitVec.new 100 true 5).2.2.2.2.2.1 0 (by decide) (by decide),
    (claim_C7 BitVec.new 100 true 5).2.2.2.2.2.2 0 (by decide) (by decide) (by decide)⟩

/-- C8: Bit round-trip — for every `i < 2 ^ 20` and boolean `b`, after
`set_bit(i, b)` a `get_bit(i)` returns `b`, and every other index `j ≠ i`
reads unchanged. -/
theorem claim_C8 (v : BitVec) (i : Nat) (b : Bool) (j : Nat) (hi : i < 2 ^ 20) :
    ((v.set_bit i b).get_bit i = b) ∧
    (j ≠ i → (v.set_bit i b).get_bit j = v.get_bit j) := by
  constructor
  · rw [get_bit_set_bit, if_pos rfl]
  · intro hj
    rw [get_bit_set_bit, if_neg hj]

/-- C8 witness at `i = 5`, `j = 7`. -/
theorem claim_C8_witness :
    (5 < 2 ^ 20) ∧ ((BitVec.new.set_bit 5 true).get_bit 5 = true) ∧
    ((BitVec.new.set_bit 5 true).get_bit 7 = BitVec.new.get_bit 7) :=
  ⟨by norm_num, (claim_C8 BitVec.new 5 true 7 (by norm_num)).1,
    (claim_C8 BitVec.new 5 true 7 (by norm_num)).2 (by norm_num)⟩

/-- C9: Guarded unchecked access — the operations are total functions, and
each internal unchecked word access is in bounds: a false `out_of_bounds`
guard puts `get_bit`'s word index inside storage, the resize of `set_bit`
puts its word index inside storage, and the resize of `set_block` covers
the current word and, in the unaligned case, also the straddle word
(`get_block`'s two reads are guarded by the explicit length comparisons in
its definition). -/
theorem claim_C9 (v : BitVec) (i : Nat) :
    (v.out_of_bounds i = false → block_i i < v.data.length) ∧
    (block_i i < (grow_for_bit v i).length) ∧
    (block_i i < (grow_for_block v i).length) ∧
    (block_aligned i = false → block_i i + 1 < (grow_for_block v i).length) := by
  refine ⟨?_, ?_, ?_, ?_⟩
  · intro h
    simp only [BitVec.out_of_bounds, decide_eq_false_iff_not, Nat.not_lt, blocks_i1] at h
    simp only [block_i]
    omega
  · rw [grow_for_bit_length]
    simp only [block_i]
    omega
  · rw [grow_for_block_length, blocks_i64]
    simp only [block_i]
    split <;> omega
  · intro ha
    have ha2 : ¬(i % 64 = 0) := by
      simpa [block_aligned] using ha
    rw [grow_for_block_length, blocks_i64, if_neg ha2]
    simp only [block_i]
    omega

/-- C9 witness at the in-bounds unaligned index 65 over two stored words. -/
theorem claim_C9_witness :
    (block_i 65 < (BitVec.data ⟨[0, 0]⟩).length) ∧
    (block_i 65 < (grow_for_bit ⟨[0, 0]⟩ 65).length) ∧
    (block_i 65 < (grow_for_block ⟨[0, 0]⟩ 65).length) ∧
    (block_i 65 + 1 < (grow_for_block ⟨[0, 0]⟩ 65).length) :=
  ⟨(claim_C9 ⟨[0, 0]⟩ 65).1 (by decide), (claim_C9 ⟨[0, 0]⟩ 65).2.1,
    (claim_C9 ⟨[0, 0]⟩ 65).2.2.1, (claim_C9 ⟨[0, 0]⟩ 65).2.2.2 (by decide)⟩

/-- C10: `with_capacity(n)` is observationally equal to `new()` for both
containers: the stored word list is empty regardless of `n`, so before any
write every `get_bit` is false and every `get_block` is 0 — reserved
capacity is never readable through the interface. -/
theorem claim_C10 (nbits : Nat) :
    BitVec.with_capacity nbits = BitVec.new ∧
    AppendOnlyBitVec.with_capacity nbits = AppendOnlyBitVec.new ∧
    (∀ i, (BitVec.with_capacity nbits).get_bit i = false) ∧
    (∀ i, (BitVec.with_capacity nbits).get_block i = 0) := by
  refine ⟨rfl, rfl, ?_, ?_⟩
  · intro i
    rw [get_bit_eq]
    simp [BitVec.with_capacity]
  · intro i
    rw [get_block_eq]
    simp [BitVec.with_capacity]

/-- C1 counterexample: `append(2, 1)` from the fresh state.  The claim
predicts `get_bit(len + 1) = bit 0 of data = 1`, but the encoder shifts the
masked data by `63 - bits` instead of `64 - bits`, so position 1 reads 0
(the set bit lands at position 2 instead). -/
theorem claim_C1_counterexample :
    ¬((AppendOnlyBitVec.new.append 2 1).get_bit (0 + 1) =
      Nat.testBit 1 (2 - 1 - 1)) := by
  decide

/-- C1 amended: `append(n, data)` always advances the cursor by exactly
`n`; for `n ∈ {1, 64}` the low `n` bits of `data` are written MSB-first at
positions `len ..< len + n` as claimed; but for `2 ≤ n ≤ 63` the field is
written one position late: position `len` reads 0 and position `len + k`
(for `1 ≤ k ≤ n`) reads bit `n - k` of `data`, so the last bit lands at
`len + n` — at the new cursor. -/
theorem claim_C1_amended (a : AppendOnlyBitVec) (n d : Nat) (hn : n ≤ 64)
    (hd : d < 2 ^ 64) :
    ((a.append n d).len = a.len + n) ∧
    (n = 1 → (a.append n d).get_bit a.len = d.testBit 0) ∧
    (n = 64 → ∀ k, k < 64 →
      (a.append n d).get_bit (a.len + k) = d.testBit (63 - k)) ∧
    (2 ≤ n → n ≤ 63 →
      ((a.append n d).get_bit a.len = false ∧
       ∀ k, 1 ≤ k → k ≤ n →
         (a.append n d).get_bit (a.len + k) = d.testBit (n - k))) := by
  refine ⟨append_len a n d, ?_, ?_, ?_⟩
  · intro h1
    subst h1
    rw [append1_get_bit, if_pos rfl]
    exact testBit_of_get_formula d 0
  · intro h64 k hk
    subst h64
    rw [append64_get_bit a d _ hd, if_pos (by omega)]
    congr 1
    omega
  · intro h2 h63
    constructor
    · rw [append_mid_get_bit a n d _ h2 h63, if_pos (by omega)]
      simp only [shl64, Nat.testBit_mod_two_pow, Nat.testBit_shiftLeft, Nat.testBit_land,
        Nat.testBit_shiftRight, testBit_ones64, Nat.sub_self, Nat.sub_zero]
      have f1 : ¬(64 - n + (63 - (63 - n)) < 64) := by omega
      simp [f1]
    · intro k hk1 hkn
      rw [append_mid_get_bit a n d _ h2 h63, if_pos (by omega)]
      have e : a.len + k - a.len = k := by omega
      rw [e]
      simp only [shl64, Nat.testBit_mod_two_pow, Nat.testBit_shiftLeft, Nat.testBit_land,
        Nat.testBit_shiftRight, testBit_ones64]
      have e2 : 63 - k - (63 - n) = n - k := by omega
      rw [e2]
      have g1 : 63 - k < 64 := by omega
      have g2 : 63 - n ≤ 63 - k := by omega
      have g3 : 64 - n + (n - k) < 64 := by omega
      simp [g1, g2, g3]

/-- C1 witness at `n = 64`, `d = 5` from the fresh state. -/
theorem claim_C1_witness :
    ((64 : Nat) ≤ 64) ∧ ((5 : Nat) < 2 ^ 64) ∧
    ((AppendOnlyBitVec.new.append 64 5).len = 0 + 64) ∧
    ((AppendOnlyBitVec.new.append 64 5).get_bit (0 + 63) =
      Nat.testBit 5 (63 - 63)) :=
  ⟨by norm_num, by norm_num,
    (claim_C1_amended AppendOnlyBitVec.new 64 5 (by norm_num) (by norm_num)).1,
    (claim_C1_amended AppendOnlyBitVec.new 64 5 (by norm_num)
        (by norm_num)).2.2.1 rfl 63 (by norm_num)⟩

/-- C2 counterexample: after the single call `append(2, 1)` from `new()`
the cursor is 2, yet `get_bit(2)` reads `true` — a bit at an index at (not
below) the cursor is observably nonzero, contradicting the claimed
invariant. -/
theorem claim_C2_counterexample :
    (run_appends [(2, 1)]).len = 2 ∧ (run_appends [(2, 1)]).get_bit 2 = true := by
  decide

theorem append_keeps_high_zero (a : AppendOnlyBitVec) (n d : Nat) (hn : n ≤ 64)
    (hd : d < 2 ^ 64) (ha : ∀ j, a.len < j → a.get_bit j = false) :
    ∀ j, (a.append n d).len < j → (a.append n d).get_bit j = false := by
  intro j hj
  rw [append_len] at hj
  by_cases h0 : n = 0
  · subst h0
    exact ha j (by omega)
  by_cases h1 : n = 1
  · subst h1
    rw [append1_get_bit, if_neg (by omega)]
    exact ha j (by omega)
  by_cases h64 : n = 64
  · subst h64
    rw [append64_get_bit a d j hd, if_neg (by omega)]
    exact ha j (by omega)
  · have h2 : 2 ≤ n := by omega
    have h63 : n ≤ 63 := by omega
    rw [append_mid_get_bit a n d j h2 h63]
    by_cases hw : a.len ≤ j ∧ j < a.len + 64
    · rw [if_pos hw]
      simp only [shl64, Nat.testBit_mod_two_pow, Nat.testBit_shiftLeft, Nat.testBit_land,
        Nat.testBit_shiftRight, testBit_ones64]
      have f : ¬(63 - n ≤ 63 - (j - a.len)) := by omega
      simp [f]
    · rw [if_neg hw]
      exact ha j (by omega)

/-- C2 amended: after any sequence of `append(n, d)` calls (each with
`n ≤ 64` and 64-bit `d`) starting from `new()`, every bit at an index
strictly above the cursor reads as zero.  The bit at the cursor itself can
be 1: a mid-width append (2 ≤ n ≤ 63) spills its last bit to position
`len + n`, which is exactly the new cursor. -/
theorem claim_C2_amended (ops : List (Nat × Nat))
    (hops : ∀ p ∈ ops, p.1 ≤ 64 ∧ p.2 < 2 ^ 64) :
    ∀ j, (run_appends ops).len < j → (run_appends ops).get_bit j = false := by
  have main : ∀ (l : List (Nat × Nat)) (a : AppendOnlyBitVec),
      (∀ p ∈ l, p.1 ≤ 64 ∧ p.2 < 2 ^ 64) →
      (∀ j, a.len < j → a.get_bit j = false) →
      ∀ j, (l.foldl (fun a op => a.append op.1 op.2) a).len < j →
        (l.foldl (fun a op => a.append op.1 op.2) a).get_bit j = false := by
    intro l
    induction l with
    | nil =>
      intro a h ha j hj
      exact ha j hj
    | cons p t ih =>
      intro a h ha
      simp only [List.foldl_cons]
      apply ih
      · intro q hq
        exact h q (List.mem_cons_of_mem p hq)
      · exact append_keeps_high_zero a p.1 p.2 (h p (List.mem_cons_self p t)).1
          (h p (List.mem_cons_self p t)).2 ha
  intro j hj
  exact main ops AppendOnlyBitVec.new hops (fun k _ => get_bit_new k) j hj

/-- C2 witness: after `append(2, 1)` the bit at index 3 (strictly above the
cursor 2) reads zero. -/
theorem claim_C2_witness :
    (∀ p ∈ [((2 : Nat), (1 : Nat))], p.1 ≤ 64 ∧ p.2 < 2 ^ 64) ∧
    (run_appends [(2, 1)]).get_bit 3 = false :=
  ⟨by decide, claim_C2_amended [(2, 1)] (by decide) 3 (by decide)⟩

/-- C4 counterexample: at `i = 1` (so `off = offset_i 1 = 62`), with word 1
previously all-ones and `block = 0`, the claim ("clear the high `off + 1`
bits of word `w + 1`, then OR in `block <<< (off + 1)`") predicts word 1
becomes `1`; the code actually clears only the high `64 - (off + 1)` bits,
leaving `2 ^ 63 - 1`. -/
theorem claim_C4_counterexample :
    ¬(((BitVec.new.set_block 64 ones64).set_block 1 0).data.getD 1 0 =
      (((BitVec.new.set_block 64 ones64).data.getD 1 0) %
          2 ^ (64 - (offset_i 1 + 1))) ||| shl64 0 (offset_i 1 + 1)) := by
  decide

/-- C4 amended: for an unaligned `set_block(i, block)` with
`off = offset_i i`, the word at `word_index(i) + 1` is updated by clearing
its high `64 - (off + 1)` bits — that is, keeping its low `off + 1` bits —
and OR-ing in `block <<< (off + 1)` (truncated to 64 bits). -/
theorem claim_C4_amended (v : BitVec) (i bv : Nat) (hu : i % 64 ≠ 0) :
    (v.set_block i bv).data.getD (block_i i + 1) 0 =
      ((v.data.getD (block_i i + 1) 0) % 2 ^ (offset_i i + 1)) |||
        shl64 bv (offset_i i + 1) := by
  have hmask : ∀ x k, k ≤ 64 → x &&& (ones64 >>> k) = x % 2 ^ (64 - k) := by
    intro x k hk
    apply Nat.eq_of_testBit_eq
    intro p
    simp only [Nat.testBit_land, Nat.testBit_shiftRight, testBit_ones64,
      Nat.testBit_mod_two_pow]
    by_cases h : k + p < 64
    · simp [h, show p < 64 - k by omega, Bool.and_comm]
    · simp [h, show ¬(p < 64 - k) by omega]
  have e1 : offset_i i + 1 = 64 - i % 64 := by
    unfold offset_i
    omega
  rw [set_block_word, if_neg hu,
    if_neg (show ¬(block_i i + 1 = i / 64) by simp only [block_i]; omega),
    if_pos (show block_i i + 1 = i / 64 + 1 by simp only [block_i]),
    hmask _ _ (by omega), e1]

/-- C4 witness at `i = 1`, `block = 0` with word 1 previously all-ones. -/
theorem claim_C4_witness :
    ((1 : Nat) % 64 ≠ 0) ∧
    (((BitVec.new.set_block 64 ones64).set_block 1 0).data.getD (block_i 1 + 1) 0 =
      (((BitVec.new.set_block 64 ones64).data.getD (block_i 1 + 1) 0) %
          2 ^ (offset_i 1 + 1)) ||| shl64 0 (offset_i 1 + 1)) :=
  ⟨by decide, claim_C4_amended (BitVec.new.set_block 64 ones64) 1 0 (by decide)⟩

/-- C6 counterexample: `TSBlock::at(0)` then first `publish_at` with
`delta = ts - ts0 = 1`.  The claim places bit 0 of `delta` at stream
position 77 (`true`), but the 14-bit field goes through the mid-width
`append`, which writes it one position late: position 77 reads bit 1 of
`delta` (`false`), and bit 0 lands at position 78 where the following
64-bit value field overwrites it. -/
theorem claim_C6_counterexample :
    ¬((publish_first (ts_block_at 0) 0 0 1).get_bit (64 + 13) =
      Nat.testBit (1 - 0) (13 - 13)) := by
  decide

/-- C6 amended: after `TSBlock::at(ts0)` and one first-sample
`publish_at(value, ts)` (with `delta = ts - ts0`), the stream holds `ts0`
MSB-first in bits `[0, 64)` and the raw 64-bit value pattern in bits
`[78, 142)` as claimed, with the cursor at 142; but the 14-bit delta field
is written one position late: bit 64 reads 0 and bit `64 + k` (for
`1 ≤ k ≤ 13`) reads bit `14 - k` of `delta` — bit 0 of `delta` is written
at position 78 and immediately overwritten by the value field. -/
theorem claim_C6_amended (ts0 value ts : Nat) (h0 : ts0 ≤ ts) (hts : ts < 2 ^ 64)
    (hv : value < 2 ^ 64) :
    ((publish_first (ts_block_at ts0) ts0 value ts).len = 142) ∧
    (∀ k, k < 64 → (publish_first (ts_block_at ts0) ts0 value ts).get_bit k =
      ts0.testBit (63 - k)) ∧
    ((publish_first (ts_block_at ts0) ts0 value ts).get_bit 64 = false) ∧
    (∀ k, 1 ≤ k → k ≤ 13 →
      (publish_first (ts_block_at ts0) ts0 value ts).get_bit (64 + k) =
        (ts - ts0).testBit (14 - k)) ∧
    (∀ k, k < 64 →
      (publish_first (ts_block_at ts0) ts0 value ts).get_bit (78 + k) =
        value.testBit (63 - k)) := by
  have hts0 : ts0 < 2 ^ 64 := by omega
  simp only [publish_first, ts_block_at]
  have l0 : (AppendOnlyBitVec.new.append 64 ts0).len = 64 := by
    rw [append_len]
    rfl
  have l1 : ((AppendOnlyBitVec.new.append 64 ts0).append 14 (ts - ts0)).len = 78 := by
    rw [append_len, l0]
  refine ⟨?_, ?_, ?_, ?_, ?_⟩
  · rw [append_len, l1]
  · intro k hk
    rw [append64_get_bit _ value k hv, if_neg (by rw [l1]; omega),
      append_mid_get_bit _ 14 _ k (by norm_num) (by norm_num),
      if_neg (by rw [l0]; omega), append64_get_bit _ ts0 k hts0,
      if_pos (show AppendOnlyBitVec.new.len ≤ k ∧ k < AppendOnlyBitVec.new.len + 64 by
        constructor <;> simp [AppendOnlyBitVec.new] <;> omega)]
    simp [AppendOnlyBitVec.new]
  · rw [append64_get_bit _ value 64 hv, if_neg (by rw [l1]; omega),
      append_mid_get_bit _ 14 _ 64 (by norm_num) (by norm_num),
      if_pos (by rw [l0]; omega), l0]
    simp only [shl64, Nat.testBit_mod_two_pow, Nat.testBit_shiftLeft, Nat.testBit_land,
      Nat.testBit_shiftRight, testBit_ones64, Nat.sub_self, Nat.sub_zero]
    have f1 : ¬(64 - 14 + (63 - (63 - 14)) < 64) := by omega
    simp [f1]
  · intro k hk1 hk13
    rw [append64_get_bit _ value (64 + k) hv, if_neg (by rw [l1]; omega),
      append_mid_get_bit _ 14 _ (64 + k) (by norm_num) (by norm_num),
      if_pos (by rw [l0]; omega), l0]
    have e : 64 + k - 64 = k := by omega
    rw [e]
    simp only [shl64, Nat.testBit_mod_two_pow, Nat.testBit_shiftLeft, Nat.testBit_land,
      Nat.testBit_shiftRight, testBit_ones64]
    have e2 : 63 - k - (63 - 14) = 14 - k := by omega
    rw [e2]
    have g1 : 63 - k < 64 := by omega
    have g2 : 63 - 14 ≤ 63 - k := by omega
    have g3 : 64 - 14 + (14 - k) < 64 := by omega
    simp [g1, g2, g3]
  · intro k hk
    rw [append64_get_bit _ value (78 + k) hv, if_pos (by rw [l1]; omega), l1]
    congr 1
    omega

/-- C6 witness with `ts0 = 3`, value pattern 5, `ts = 12` (`delta = 9`). -/
theorem claim_C6_witness :
    ((3 : Nat) ≤ 12) ∧ ((12 : Nat) < 2 ^ 64) ∧ ((5 : Nat) < 2 ^ 64) ∧
    ((publish_first (ts_block_at 3) 3 5 12).len = 142) ∧
    ((publish_first (ts_block_at 3) 3 5 12).get_bit (64 + 11) =
      Nat.testBit (12 - 3) (14 - 11)) :=
  ⟨by norm_num, by norm_num, by norm_num,
    (claim_C6_amended 3 5 12 (by norm_num) (by norm_num) (by norm_num)).1,
    (claim_C6_amended 3 5 12 (by norm_num) (by norm_num)
        (by norm_num)).2.2.2.1 11 (by norm_num) (by norm_num)⟩

end Counter
